import Mathlib

/-!
Verification of the multi-strategy text indexing and ranked-retrieval engine
(tokenizers, indexing service, search service) against its specification.

Strings are modelled as `List Char`.  The external `unidecode` transliteration
step (a third-party library mapping arbitrary Unicode to ASCII) is abstracted
as a parameter `uni : List Char → List Char`; on ASCII input the real
`unidecode` is the identity, so concrete examples instantiate `uni := id`.
Python `str.lower` agrees with `Char.toLower` on the ASCII range that
`unidecode` produces.
-/

namespace SearchEngine

/-- One character of the substitution `re.sub("[^a-z0-9]", " ", text)`:
a character outside `a`-`z`, `0`-`9` becomes a space. -/
def keepAlnum (c : Char) : Char :=
  if ('a' ≤ c ∧ c ≤ 'z') ∨ ('0' ≤ c ∧ c ≤ '9') then c else ' '

/-- The substitution `re.sub("\\s+", " ", text)` on its reachable inputs:
after `keepAlnum` the only whitespace character left is the space, so
collapsing repeated whitespace is collapsing repeated spaces. -/
def collapseSpaces : List Char → List Char
  | [] => []
  | [c] => [c]
  | c₁ :: c₂ :: rest =>
    if c₁ = ' ' ∧ c₂ = ' ' then collapseSpaces (c₂ :: rest)
    else c₁ :: collapseSpaces (c₂ :: rest)

/-- Python `str.strip()` on its reachable inputs (only spaces remain). -/
def stripSpaces (l : List Char) : List Char :=
  ((l.dropWhile (· = ' ')).reverse.dropWhile (· = ' ')).reverse

/-- Python `str.split(" ")`: split at every single space, keeping empty
pieces; the empty string yields one empty piece. -/
def splitSpace : List Char → List (List Char)
  | [] => [[]]
  | c :: rest =>
    match splitSpace rest with
    | [] => [[]]
    | w :: ws => if c = ' ' then [] :: w :: ws else (c :: w) :: ws

/-- `Tokenizer._normalize`: transliterate (`uni`), lowercase, replace every
character outside `[a-z0-9]` with a space, collapse whitespace runs, strip. -/
def normalize (uni : List Char → List Char) (text : List Char) : List Char :=
  stripSpaces (collapseSpaces (((uni text).map Char.toLower).map keepAlnum))

/-- `Tokenizer._extract_words`: split the normalized text on spaces and keep
the words of length at least 2. -/
def extractWords (uni : List Char → List Char) (text : List Char) : List (List Char) :=
  (splitSpace (normalize uni text)).filter (fun w => 2 ≤ w.length)

/-- `Token`: a token value together with the weight of the tokenizer that
produced it. -/
structure Token where
  value : List Char
  weight : Int
deriving DecidableEq, Repr

/-- `WordTokenizer.tokenize`: each distinct extracted word, once (the Python
code builds a `set` of the words before emitting tokens). -/
def wordTokenize (uni : List Char → List Char) (weight : Int) (text : List Char) :
    List Token :=
  ((extractWords uni text).dedup).map (fun w => ⟨w, weight⟩)

/-- `PrefixTokenizer.tokenize`: for each extracted word of length at least
`minPrefixLen`, the prefixes of lengths `minPrefixLen .. length`, collected
into one set across all words. -/
def prefixTokenize (uni : List Char → List Char) (weight : Int) (minPrefixLen : Nat)
    (text : List Char) : List Token :=
  let words := extractWords uni text
  let vals := (words.flatMap (fun word =>
    if minPrefixLen ≤ word.length then
      (List.range' minPrefixLen (word.length + 1 - minPrefixLen)).map
        (fun i => word.take i)
    else [])).dedup
  vals.map (fun v => ⟨v, weight⟩)

/-- `NGramTokenizer.tokenize`: for each extracted word of length at least
`ngramLen`, every contiguous substring of length `ngramLen`, collected into
one set across all words. -/
def ngramTokenize (uni : List Char → List Char) (weight : Int) (ngramLen : Nat)
    (text : List Char) : List Token :=
  let words := extractWords uni text
  let vals := (words.flatMap (fun word =>
    if ngramLen ≤ word.length then
      (List.range (word.length - ngramLen + 1)).map
        (fun i => (word.drop i).take ngramLen)
    else [])).dedup
  vals.map (fun v => ⟨v, weight⟩)

/-- The default tokenizer family used by `IndexingService` and
`SearchService`: word tokenizer (weight 20), prefix tokenizer (weight 5,
minimum prefix length 4), n-gram tokenizer (weight 1, n = 3), run in that
order and concatenated (`all_tokens` in `index_document`,
`_tokenize_query` in `search`). -/
def allTokens (uni : List Char → List Char) (text : List Char) : List Token :=
  wordTokenize uni 20 text ++ prefixTokenize uni 5 4 text ++ ngramTokenize uni 1 3 text

/-- `math.ceil(math.sqrt(n))` for a natural number `n`: the least `k` with
`n ≤ k * k`.  (Python computes this through IEEE doubles; for the lengths
that occur here — token values are bounded by the 255-character dictionary
column — the correctly rounded double square root makes `ceil` agree with
this integer definition.) -/
def ceilSqrt (n : Nat) : Nat :=
  if Nat.sqrt n * Nat.sqrt n = n then Nat.sqrt n else Nat.sqrt n + 1

/-- The `field_weight` constant of `IndexingService.index_document`. -/
def fieldWeight : Int := 10

/-- The `document_type` written on every posting. -/
def newsDocType : List Char := "NewsClassification".toList

/-- The `field_id` written on every posting. -/
def reviewField : List Char := "review".toList

/-- `IndexEntry`: one posting row.  The dictionary enforces a unique
`IndexToken` row per name, so the token foreign key is represented by the
token name. -/
structure IndexEntryRec where
  tokenName : List Char
  documentId : Int
  documentType : List Char
  fieldId : List Char
  weight : Int
deriving DecidableEq, Repr

/-- A `NewsClassification` row as the indexing and search services use it:
id, the review text, the label, and the token count that
`index_document` writes and `search` reads.  The ORM model declares no
`token_count` field, so in the program both that write and that read
raise; this row type carries the field the services assume, and the
missing declaration itself is settled by the field-resolution theorems
below. -/
structure Doc where
  id : Int
  review : List Char
  label : List Char
  tokenCount : Int
deriving DecidableEq, Repr

/-- The durable store: the token dictionary (`index_tokens` names), the
postings (`index_entries`) and the documents (`news_classifications`). -/
@[ext]
structure DB where
  tokens : List (List Char)
  entries : List IndexEntryRec
  docs : List Doc
deriving DecidableEq, Repr

/-- `IndexingService.remove_document_from_index`: delete every posting of
the given document id. -/
def removeDocumentFromIndex (db : DB) (documentId : Int) : DB :=
  { db with entries := db.entries.filter (fun e => decide (e.documentId ≠ documentId)) }

/-- The posting `index_document` appends for one token:
`IndexEntry(token, document_id, "NewsClassification", "review",
field_weight * token.weight * ceil(sqrt(len(token.value))))`. -/
def entryFor (docId : Int) (t : Token) : IndexEntryRec :=
  ⟨t.value, docId, newsDocType, reviewField,
    fieldWeight * t.weight * (ceilSqrt t.value.length : Int)⟩

/-- The `entries_to_create` list of `index_document`: for every token of
`all_tokens` (in order), look its value up in the token map built from the
existing dictionary rows matching `token_values` plus the freshly created
rows, skip it if absent, otherwise build the posting. -/
def entriesToCreate (dbTokens : List (List Char)) (uni : List Char → List Char)
    (doc : Doc) : List IndexEntryRec :=
  let toks := allTokens uni doc.review
  let tokenValues := (toks.map Token.value).dedup
  let existingNames := dbTokens.filter (fun n => decide (n ∈ tokenValues))
  let newTokenValues := tokenValues.filter (fun v => decide (v ∉ existingNames))
  toks.filterMap (fun t =>
    if t.value ∈ existingNames ++ newTokenValues then some (entryFor doc.id t) else none)

/-- `IndexingService.index_document`: remove the old postings of the
document, tokenize its review with the default family, create the missing
dictionary rows, bulk-insert one posting per element of `all_tokens`, and
set the document token count to the number of postings inserted.  The
final `save(update_fields=["token_count"])` is modelled as persisting the
count into the document row; in the program that save raises on the
missing ORM field (the entries and tokens components are unaffected — the
postings are already inserted when it runs). -/
def indexDocument (uni : List Char → List Char) (db : DB) (doc : Doc) : DB :=
  let db1 := removeDocumentFromIndex db doc.id
  let toks := allTokens uni doc.review
  let tokenValues := (toks.map Token.value).dedup
  let existingNames := db1.tokens.filter (fun n => decide (n ∈ tokenValues))
  let newTokenValues := tokenValues.filter (fun v => decide (v ∉ existingNames))
  let created := entriesToCreate db1.tokens uni doc
  { tokens := db1.tokens ++ newTokenValues,
    entries := db1.entries ++ created,
    docs := db1.docs.map (fun d =>
      if d.id = doc.id then { d with tokenCount := (created.length : Int) } else d) }

/-- The sort `sorted(values, key=len, reverse=True)`: stable descending by
string length (Python reverse sorting is the stable ascending sort run on
the reversed comparison classes, which coincides with a stable merge sort
under the flipped comparison). -/
def sortByLenDesc (l : List (List Char)) : List (List Char) :=
  l.mergeSort (fun a b => decide (b.length ≤ a.length))

/-- The distinct token values of the tokenized query,
`set(token.value for token in query_tokens)`. -/
def distinctQueryValues (uni : List Char → List Char) (query : List Char) :
    List (List Char) :=
  ((allTokens uni query).map Token.value).dedup

/-- The candidate token values of `SearchService.search`: distinct query
token values, sorted by length descending, truncated to 300 when more than
300 exist. -/
def candidateTokenValues (uni : List Char → List Char) (query : List Char) :
    List (List Char) :=
  let tokenValues := sortByLenDesc (distinctQueryValues uni query)
  if 300 < tokenValues.length then tokenValues.take 300 else tokenValues

/-- The postings matching the candidate token values
(`IndexEntry.filter(token__name__in=token_values)`). -/
def matchingEntries (db : DB) (tokenValues : List (List Char)) : List IndexEntryRec :=
  db.entries.filter (fun e => decide (e.tokenName ∈ tokenValues))

/-- The `group_by("document_id")` groups: the distinct document ids of the
matching postings. -/
def candidateDocIds (db : DB) (tokenValues : List (List Char)) : List Int :=
  ((matchingEntries db tokenValues).map IndexEntryRec.documentId).dedup

/-- The token count used for normalization:
`doc_token_map.get(document_id, 1)` followed by the zero-to-one floor. -/
def normalizedTokenCount (db : DB) (d : Int) : Int :=
  let tc := ((db.docs.find? (fun dd => decide (dd.id = d))).map Doc.tokenCount).getD 1
  if tc = 0 then 1 else tc

/-- The scored rows of `search`: per candidate document, the database
aggregates `base_score = Sum(weight)`, `token_diversity = Count(token_id,
distinct) ` (the dictionary keys one token row per name, so distinct token
ids are distinct token names) and `avg_weight = Avg(weight)`, combined as
`base_score * (1 + token_diversity) * (1 + avg_weight) / doc_token_count`. -/
def searchScores (db : DB) (tokenValues : List (List Char)) : List (Int × ℚ) :=
  (candidateDocIds db tokenValues).map (fun d =>
    let es := (matchingEntries db tokenValues).filter (fun e => decide (e.documentId = d))
    let baseScore : Int := (es.map IndexEntryRec.weight).sum
    let tokenDiversity : Nat := ((es.map IndexEntryRec.tokenName).dedup).length
    let avgWeight : ℚ := (baseScore : ℚ) / (es.length : ℚ)
    (d, ((baseScore : ℚ) * (1 + (tokenDiversity : ℚ)) * (1 + avgWeight))
      / ((normalizedTokenCount db d : ℚ))))

/-- `SearchService.search`, returning the ranked document ids (the Python
code maps these ids to full `NewsClassification` rows, dropping ids whose
row has disappeared, and returns the rows in this order; the contract is
stated over the ids).  Empty tokenization returns the empty list before
any store access.  The sort is Python `sorted(..., key=score,
reverse=True)`: stable descending.  The
`values("id", "token_count")` document read is modelled as succeeding on
the `Doc` rows above; in the program it raises, because the ORM model
declares no `token_count` field (see the field-resolution theorems). -/
def search (uni : List Char → List Char) (db : DB) (query : List Char)
    (limit : Nat) : List Int :=
  let queryTokens := allTokens uni query
  if queryTokens.isEmpty then [] else
  let tokenValues := candidateTokenValues uni query
  let scored := searchScores db tokenValues
  let sortedResults := scored.mergeSort (fun a b => decide (b.2 ≤ a.2))
  let docIds := (sortedResults.take limit).map Prod.fst
  docIds.filter (fun d => (db.docs.find? (fun dd => decide (dd.id = d))).isSome)

/-- The default `limit` of `SearchService.search`. -/
def defaultLimit : Nat := 10

/-!  Spec-worded scoring, for the refinement claim about `search`.  These
definitions follow the specification sentences — per candidate document, a
closed-form score over the matching postings — to be compared with the
grouped aggregation pipeline embedded above. -/

/-- Spec wording: the postings of document `d` whose token is among the
candidate values. -/
def specMatching (db : DB) (tokenValues : List (List Char)) (d : Int) :
    List IndexEntryRec :=
  db.entries.filter (fun e => decide (e.tokenName ∈ tokenValues ∧ e.documentId = d))

/-- Spec wording: `baseScore` is the sum of the matching posting weights. -/
def specBaseScore (db : DB) (tokenValues : List (List Char)) (d : Int) : Int :=
  ((specMatching db tokenValues d).map IndexEntryRec.weight).sum

/-- Spec wording: `tokenDiversity` is the count of distinct matching tokens. -/
def specTokenDiversity (db : DB) (tokenValues : List (List Char)) (d : Int) : Nat :=
  (((specMatching db tokenValues d).map IndexEntryRec.tokenName).dedup).length

/-- Spec wording: `avgWeight` is the average weight of the matching postings. -/
def specAvgWeight (db : DB) (tokenValues : List (List Char)) (d : Int) : ℚ :=
  (specBaseScore db tokenValues d : ℚ) / ((specMatching db tokenValues d).length : ℚ)

/-- Spec wording: the stored token count of the document, floored to 1 when
it is zero or the document row is missing. -/
def specTokenCount (db : DB) (d : Int) : Int :=
  match db.docs.find? (fun dd => decide (dd.id = d)) with
  | none => 1
  | some doc => if doc.tokenCount = 0 then 1 else doc.tokenCount

/-- Spec wording:
`score = baseScore * (1 + tokenDiversity) * (1 + avgWeight) / tokenCount`. -/
def specScore (db : DB) (tokenValues : List (List Char)) (d : Int) : ℚ :=
  ((specBaseScore db tokenValues d : ℚ)
      * (1 + (specTokenDiversity db tokenValues d : ℚ))
      * (1 + specAvgWeight db tokenValues d))
    / ((specTokenCount db d : ℚ))

/-!  The ORM field set of the document model.  `index_document` ends with
`document.save(update_fields=["token_count"])` and `search` reads
`values("id", "token_count")`; both resolve field names against the
declared fields of `NewsClassification`. -/

/-- The fields declared on the `NewsClassification` ORM model
(`news_classification.py`): `id`, `review`, `label`, `created_at`,
`updated_at` — and no `token_count`. -/
def newsClassificationFields : List String :=
  ["id", "review", "label", "created_at", "updated_at"]

/-- The field resolution performed by the ORM for
`save(update_fields=...)` (and likewise for `values(...)`): every requested
name is looked up among the declared model fields, and a missing name makes
the call fail (`none`) instead of updating anything. -/
def resolveUpdateFields (modelFields : List String) (updateFields : List String) :
    Option (List String) :=
  if updateFields.all (fun f => modelFields.contains f) then some updateFields else none

/-!  Concrete fixtures used by counterexamples and witnesses. -/

/-- A document whose review is the single word `data`. -/
def doc1 : Doc := ⟨1, "data".toList, "ai".toList, 0⟩

/-- A store holding only `doc1`, not yet indexed. -/
def db0 : DB := ⟨[], [], [doc1]⟩

/-- The store after indexing `doc1`. -/
def db1 : DB := indexDocument id db0 doc1

/-- Count of the postings of one document, field and token value. -/
def countPostings (db : DB) (docId : Int) (fieldId : List Char) (v : List Char) : Nat :=
  (db.entries.filter (fun e =>
    decide (e.documentId = docId ∧ e.fieldId = fieldId ∧ e.tokenName = v))).length

/-- How many of the three default tokenizer strategies emit the value `v`
for the given text. -/
def strategiesEmitting (uni : List Char → List Char) (text : List Char)
    (v : List Char) : Nat :=
  (if v ∈ (wordTokenize uni 20 text).map Token.value then 1 else 0)
    + (if v ∈ (prefixTokenize uni 5 4 text).map Token.value then 1 else 0)
    + (if v ∈ (ngramTokenize uni 1 3 text).map Token.value then 1 else 0)

/-- The character class `[a-z0-9]` kept by normalization. -/
def isAlnumChar (c : Char) : Prop :=
  ('a' ≤ c ∧ c ≤ 'z') ∨ ('0' ≤ c ∧ c ≤ '9')

instance : DecidablePred isAlnumChar := fun c => by
  unfold isAlnumChar
  infer_instance

end SearchEngine

namespace SearchEngine

/-!  Helper lemmas. -/

theorem filterMap_if_eq_map {α β : Type} (l : List α) (P : α → Prop) [DecidablePred P]
    (f : α → β) (h : ∀ a ∈ l, P a) :
    (l.filterMap (fun a => if P a then some (f a) else none)) = l.map f := by
  induction l with
  | nil => rfl
  | cons a t ih =>
    simp only [List.filterMap_cons, List.map_cons]
    rw [if_pos (h a (List.mem_cons_self a t)), ih (fun b hb => h b (List.mem_cons_of_mem a hb))]

theorem mem_lookup_domain (dbTokens : List (List Char)) (tokenValues : List (List Char))
    (v : List Char) (hv : v ∈ tokenValues) :
    v ∈ dbTokens.filter (fun n => decide (n ∈ tokenValues))
        ++ tokenValues.filter
            (fun w => decide (w ∉ dbTokens.filter (fun n => decide (n ∈ tokenValues)))) := by
  by_cases h : v ∈ dbTokens.filter (fun n => decide (n ∈ tokenValues))
  · exact List.mem_append_left _ h
  · refine List.mem_append_right _ ?_
    simp only [List.mem_filter, decide_eq_true_eq]
    refine ⟨hv, ?_⟩
    simpa only [List.mem_filter, decide_eq_true_eq] using h

theorem entriesToCreate_eq_map (dbTokens : List (List Char))
    (uni : List Char → List Char) (doc : Doc) :
    entriesToCreate dbTokens uni doc = (allTokens uni doc.review).map (entryFor doc.id) := by
  simp only [entriesToCreate]
  apply filterMap_if_eq_map
  intro t ht
  exact mem_lookup_domain _ _ _ (List.mem_dedup.2 (List.mem_map_of_mem Token.value ht))

theorem indexDocument_entries (uni : List Char → List Char) (db : DB) (doc : Doc) :
    (indexDocument uni db doc).entries
      = db.entries.filter (fun e => decide (e.documentId ≠ doc.id))
        ++ (allTokens uni doc.review).map (entryFor doc.id) := by
  simp only [indexDocument, removeDocumentFromIndex, entriesToCreate_eq_map]

theorem indexDocument_docs (uni : List Char → List Char) (db : DB) (doc : Doc) :
    (indexDocument uni db doc).docs
      = db.docs.map (fun d =>
          if d.id = doc.id then
            { d with tokenCount := ((allTokens uni doc.review).length : Int) }
          else d) := by
  simp only [indexDocument, removeDocumentFromIndex, entriesToCreate_eq_map,
    List.length_map]

end SearchEngine

namespace SearchEngine

theorem indexDocument_tokens (uni : List Char → List Char) (db : DB) (doc : Doc) :
    (indexDocument uni db doc).tokens
      = db.tokens
        ++ (((allTokens uni doc.review).map Token.value).dedup).filter
            (fun v => decide (v ∉ db.tokens.filter
              (fun n => decide (n ∈ ((allTokens uni doc.review).map Token.value).dedup)))) := by
  simp only [indexDocument, removeDocumentFromIndex]

theorem mem_tokens_indexDocument (uni : List Char → List Char) (db : DB) (doc : Doc)
    (v : List Char) (hv : v ∈ ((allTokens uni doc.review).map Token.value).dedup) :
    v ∈ (indexDocument uni db doc).tokens := by
  rw [indexDocument_tokens]
  by_cases h : v ∈ db.tokens
  · exact List.mem_append_left _ h
  · refine List.mem_append_right _ ?_
    simp only [List.mem_filter, decide_eq_true_eq]
    refine ⟨hv, ?_⟩
    intro hmem
    exact h hmem.1

theorem countP_eq_ite_of_nodup {α : Type} [DecidableEq α] (l : List α) (h : l.Nodup)
    (v : α) : l.countP (fun x => decide (x = v)) = if v ∈ l then 1 else 0 := by
  induction l with
  | nil => simp
  | cons a t ih =>
    rcases List.nodup_cons.1 h with ⟨ha, ht⟩
    by_cases hv : a = v
    · subst hv
      simp [List.countP_cons, ih ht, ha]
    · simp [List.countP_cons, ih ht, hv, Ne.symm hv]

theorem map_value_mk (l : List (List Char)) (w : Int) :
    (l.map (fun v => (⟨v, w⟩ : Token))).map Token.value = l := by
  induction l with
  | nil => rfl
  | cons a t ih => simp [ih]

end SearchEngine

namespace SearchEngine

/-- Claim C6: indexing is idempotent — re-running `index_document` on the
same unchanged document reproduces the whole store state: the first step
removes every posting of the document id (a no-op when none exist), the
recreation is deterministic, no new dictionary rows are needed, and the
token count is written to the same value.  In particular the final posting
set of the document and its token count agree with a single call. -/
theorem claim6_indexing_idempotent (uni : List Char → List Char) (db : DB) (doc : Doc) :
    indexDocument uni (indexDocument uni db doc) doc = indexDocument uni db doc := by
  apply DB.ext
  · rw [indexDocument_tokens uni (indexDocument uni db doc) doc]
    have hnil : ((((allTokens uni doc.review).map Token.value).dedup).filter
        (fun v => decide (v ∉ (indexDocument uni db doc).tokens.filter
          (fun n => decide (n ∈ ((allTokens uni doc.review).map Token.value).dedup))))) = [] := by
      rw [List.filter_eq_nil_iff]
      intro v hv
      simp only [decide_eq_true_eq, not_not, Decidable.not_not]
      exact List.mem_filter.2 ⟨mem_tokens_indexDocument uni db doc v hv,
        by simpa using hv⟩
    rw [hnil, List.append_nil]
  · rw [indexDocument_entries uni (indexDocument uni db doc) doc,
      indexDocument_entries uni db doc, List.filter_append, List.filter_filter]
    have h1 : (db.entries.filter (fun a =>
        decide (a.documentId ≠ doc.id) && decide (a.documentId ≠ doc.id)))
        = db.entries.filter (fun e => decide (e.documentId ≠ doc.id)) := by
      apply List.filter_congr
      intro a _
      simp
    have h2 : (((allTokens uni doc.review).map (entryFor doc.id)).filter
        (fun e => decide (e.documentId ≠ doc.id))) = [] := by
      rw [List.filter_eq_nil_iff]
      intro e he
      rcases List.mem_map.1 he with ⟨t, _, rfl⟩
      simp [entryFor]
    rw [h1, h2, List.append_nil]
  · rw [indexDocument_docs uni (indexDocument uni db doc) doc,
      indexDocument_docs uni db doc, List.map_map]
    apply List.map_congr_left
    intro d _
    by_cases h : d.id = doc.id
    · simp [Function.comp, h]
    · simp [Function.comp, h]

end SearchEngine

namespace SearchEngine

/-- Claim C9: `remove_document_from_index(id)` deletes exactly the postings
whose document id is `id` and changes nothing else — the dictionary and the
document rows are untouched, postings of other documents survive, even when
dictionary tokens are left with no postings. -/
theorem claim9_remove_frame (db : DB) (documentId : Int) :
    (removeDocumentFromIndex db documentId).tokens = db.tokens ∧
    (removeDocumentFromIndex db documentId).docs = db.docs ∧
    ∀ e : IndexEntryRec, e ∈ (removeDocumentFromIndex db documentId).entries ↔
      (e ∈ db.entries ∧ e.documentId ≠ documentId) := by
  refine ⟨rfl, rfl, fun e => ?_⟩
  simp [removeDocumentFromIndex, List.mem_filter]

/-- Claim C3: every posting in the `entries_to_create` list built by
`index_document` carries the weight
`fieldWeight * tokenizerWeight * ceil(sqrt(len(value)))`, with the
tokenizer weight taken from the token that produced the posting and
`fieldWeight = 10`. -/
theorem claim3_posting_weight_formula (dbTokens : List (List Char))
    (uni : List Char → List Char) (doc : Doc) (e : IndexEntryRec)
    (he : e ∈ entriesToCreate dbTokens uni doc) :
    ∃ t ∈ allTokens uni doc.review, e.tokenName = t.value ∧
      e.weight = fieldWeight * t.weight * (ceilSqrt t.value.length : Int) := by
  rw [entriesToCreate_eq_map] at he
  rcases List.mem_map.1 he with ⟨t, ht, rfl⟩
  exact ⟨t, ht, rfl, rfl⟩

/-- Witness for claim C3: the posting for the word token `data` of the
fixture document, with weight `10 * 20 * ceil(sqrt(4)) = 400`. -/
theorem claim3_witness :
    (entryFor doc1.id ⟨"data".toList, 20⟩ ∈ entriesToCreate [] id doc1) ∧
    ∃ t ∈ allTokens id doc1.review,
      ((entryFor doc1.id ⟨"data".toList, 20⟩).tokenName = t.value ∧
        (entryFor doc1.id ⟨"data".toList, 20⟩).weight
          = fieldWeight * t.weight * (ceilSqrt t.value.length : Int)) := by
  have hall : allTokens id doc1.review
      = [⟨"data".toList, 20⟩, ⟨"data".toList, 5⟩, ⟨"dat".toList, 1⟩, ⟨"ata".toList, 1⟩] := by
    rfl
  have hmem : entryFor doc1.id ⟨"data".toList, 20⟩ ∈ entriesToCreate [] id doc1 := by
    rw [entriesToCreate_eq_map]
    refine List.mem_map_of_mem (entryFor doc1.id) ?_
    rw [hall]
    exact List.mem_cons_self _ _
  exact ⟨hmem, claim3_posting_weight_formula [] id doc1 _ hmem⟩

/-- Claim C4 (code bug evidence): the `NewsClassification` ORM model
declares only `id`, `review`, `label`, `created_at`, `updated_at`, so the
final step of `index_document`, `save(update_fields=["token_count"])`,
resolves a field name that does not exist and fails — the token count the
claim and the spec describe is never persisted (and the
`values("id", "token_count")` read in `search` hits the same missing
field). -/
theorem claim4_token_count_field_missing :
    resolveUpdateFields newsClassificationFields ["token_count"] = none ∧
    "token_count" ∉ newsClassificationFields := by
  constructor
  · rfl
  · decide

/-- Claim C8: a query whose tokenization is empty makes `search` return the
empty list at once (before touching the store); an empty result, not an
error. -/
theorem claim8_empty_query_empty_result (uni : List Char → List Char) (db : DB)
    (query : List Char) (limit : Nat) (h : allTokens uni query = []) :
    search uni db query limit = [] := by
  simp [search, h]

/-- Witness for claim C8: the empty query tokenizes to nothing and returns
the empty list on the indexed fixture store. -/
theorem claim8_witness :
    allTokens id ([] : List Char) = [] ∧ search id db1 ([] : List Char) 10 = [] := by
  refine ⟨by decide, ?_⟩
  exact claim8_empty_query_empty_result id db1 [] 10 (by decide)

/-- Claim C1 is false on the code: postings are created from the
concatenated `all_tokens` list, not from the value-deduplicated
`token_values` list, so a value emitted by two tokenizer strategies yields
two postings.  For the document whose review is `data`, the word tokenizer
and the prefix tokenizer both emit the value `data`, and after
`index_document` the store holds two postings of `(documentId = 1,
fieldId = review)` with that value. -/
theorem claim1_counterexample :
    1 < countPostings (indexDocument id db0 doc1) 1 reviewField ("data".toList) := by
  decide

end SearchEngine

namespace SearchEngine

theorem countP_value_mk (l : List (List Char)) (w : Int) (v : List Char) :
    ((l.dedup.map (fun x => (⟨x, w⟩ : Token))).countP (fun t => decide (t.value = v)))
      = if v ∈ (l.dedup.map (fun x => (⟨x, w⟩ : Token))).map Token.value then 1 else 0 := by
  rw [List.countP_map, map_value_mk]
  have h : ((fun t => decide (t.value = v)) ∘ (fun x => (⟨x, w⟩ : Token)))
      = fun x => decide (x = v) := rfl
  rw [h]
  by_cases hv : v ∈ l.dedup
  · rw [countP_eq_ite_of_nodup _ (List.nodup_dedup l) v, if_pos hv, if_pos hv]
  · rw [countP_eq_ite_of_nodup _ (List.nodup_dedup l) v, if_neg hv, if_neg hv]

/-- Claim C1 amended: postings are not deduplicated by value across
tokenizer strategies — only the dictionary rows are.  After
`index_document`, the number of postings of `(doc.id, review)` holding a
given token value equals the number of tokenizer strategies whose token
set contains that value (each strategy emits a value at most once), so a
value emitted by two strategies yields two postings. -/
theorem claim1_amended_postings_per_strategy (uni : List Char → List Char) (db : DB)
    (doc : Doc) (v : List Char) :
    countPostings (indexDocument uni db doc) doc.id reviewField v
      = strategiesEmitting uni doc.review v := by
  unfold countPostings
  rw [indexDocument_entries, List.filter_append, List.length_append]
  have h1 : ((db.entries.filter (fun e => decide (e.documentId ≠ doc.id))).filter
      (fun e => decide (e.documentId = doc.id ∧ e.fieldId = reviewField
        ∧ e.tokenName = v))) = [] := by
    rw [List.filter_eq_nil_iff]
    intro e he
    have hne := (List.mem_filter.1 he).2
    simp only [decide_eq_true_eq] at hne ⊢
    intro hc
    exact hne hc.1
  rw [h1]
  simp only [List.length_nil, Nat.zero_add]
  rw [← List.countP_eq_length_filter, List.countP_map]
  have hpred : ∀ t ∈ allTokens uni doc.review,
      ((((fun e => decide (e.documentId = doc.id ∧ e.fieldId = reviewField
          ∧ e.tokenName = v)) ∘ entryFor doc.id) t = true)
        ↔ (decide (t.value = v) = true)) := by
    intro t _
    simp [entryFor, Function.comp]
  rw [List.countP_congr hpred]
  unfold allTokens
  rw [List.countP_append, List.countP_append]
  unfold strategiesEmitting
  simp only [wordTokenize, prefixTokenize, ngramTokenize]
  rw [countP_value_mk, countP_value_mk, countP_value_mk]

end SearchEngine

namespace SearchEngine

theorem sortByLenDesc_perm (l : List (List Char)) : (sortByLenDesc l).Perm l :=
  List.mergeSort_perm l _

theorem sortByLenDesc_length (l : List (List Char)) :
    (sortByLenDesc l).length = l.length :=
  (sortByLenDesc_perm l).length_eq

theorem sortByLenDesc_sorted (l : List (List Char)) :
    List.Pairwise (fun a b => (b : List Char).length ≤ a.length) (sortByLenDesc l) := by
  have h := @List.sorted_mergeSort (List Char)
    (fun a b : List Char => decide (b.length ≤ a.length))
    (fun a b c h1 h2 => by
      simp only [decide_eq_true_eq] at h1 h2 ⊢
      exact le_trans h2 h1)
    (fun a b => by
      simp only [Bool.or_eq_true, decide_eq_true_eq]
      exact le_total b.length a.length)
    l
  exact h.imp (fun hab => of_decide_eq_true hab)

/-- Claim C5: the candidate token set of `search` is the distinct query
token values sorted by string length descending and truncated to the first
300; at most 300 candidates are ever used, and when 300 or fewer distinct
values exist all of them are used. -/
theorem claim5_candidate_cap (uni : List Char → List Char) (query : List Char) :
    candidateTokenValues uni query
        = (sortByLenDesc (distinctQueryValues uni query)).take 300
    ∧ (sortByLenDesc (distinctQueryValues uni query)).Perm
        (distinctQueryValues uni query)
    ∧ List.Pairwise (fun a b => (b : List Char).length ≤ a.length)
        (sortByLenDesc (distinctQueryValues uni query))
    ∧ ((distinctQueryValues uni query).length ≤ 300 →
        candidateTokenValues uni query = sortByLenDesc (distinctQueryValues uni query))
    ∧ (candidateTokenValues uni query).length ≤ 300 := by
  have hlen := sortByLenDesc_length (distinctQueryValues uni query)
  refine ⟨?_, sortByLenDesc_perm _, sortByLenDesc_sorted _, ?_, ?_⟩
  · unfold candidateTokenValues
    by_cases h : 300 < (sortByLenDesc (distinctQueryValues uni query)).length
    · rw [if_pos h]
    · rw [if_neg h]
      rw [List.take_of_length_le (by omega)]
  · intro h300
    unfold candidateTokenValues
    rw [if_neg (by omega)]
  · unfold candidateTokenValues
    by_cases h : 300 < (sortByLenDesc (distinctQueryValues uni query)).length
    · rw [if_pos h]
      have := List.length_take 300 (sortByLenDesc (distinctQueryValues uni query))
      omega
    · rw [if_neg h]
      omega

/-- Witness for claim C5: the query `cats` has three distinct token values,
so all of them are used, in length-descending order. -/
theorem claim5_witness :
    ((distinctQueryValues id ("cats".toList)).length ≤ 300)
    ∧ candidateTokenValues id ("cats".toList)
        = sortByLenDesc (distinctQueryValues id ("cats".toList))
    ∧ (candidateTokenValues id ("cats".toList)).length ≤ 300 := by
  refine ⟨by decide, ?_, ?_⟩
  · exact (claim5_candidate_cap id ("cats".toList)).2.2.2.1 (by decide)
  · exact (claim5_candidate_cap id ("cats".toList)).2.2.2.2

/-- Claim C7: with minimum prefix length 4, the prefix tokenizer emits,
for every extracted word of length at least 4, exactly the prefixes of that
word of every length from 4 to the word length; and on the single word
`database` the emitted value set is exactly
`data, datab, databa, databas, database`. -/
theorem claim7_prefix_tokenizer (uni : List Char → List Char) (w : Int)
    (text : List Char) :
    (∀ v : List Char,
      (v ∈ (prefixTokenize uni w 4 text).map Token.value ↔
        ∃ word ∈ extractWords uni text,
          ∃ i : Nat, 4 ≤ i ∧ i ≤ word.length ∧ v = word.take i))
    ∧ (prefixTokenize id 5 4 ("database".toList)).map Token.value
        = ["data".toList, "datab".toList, "databa".toList, "databas".toList,
            "database".toList] := by
  constructor
  · intro v
    simp only [prefixTokenize, map_value_mk, List.mem_dedup, List.mem_flatMap]
    constructor
    · rintro ⟨word, hword, hv⟩
      by_cases hg : 4 ≤ word.length
      · rw [if_pos hg] at hv
        rcases List.mem_map.1 hv with ⟨i, hi, rfl⟩
        rcases List.mem_range'_1.1 hi with ⟨h4, hub⟩
        exact ⟨word, hword, i, h4, by omega, rfl⟩
      · rw [if_neg hg] at hv
        exact absurd hv (List.not_mem_nil v)
    · rintro ⟨word, hword, i, h4, hle, rfl⟩
      refine ⟨word, hword, ?_⟩
      rw [if_pos (le_trans h4 hle)]
      exact List.mem_map_of_mem _ (List.mem_range'_1.2 ⟨h4, by omega⟩)
  · rfl

end SearchEngine

namespace SearchEngine

theorem keepAlnum_cases (b : Char) : isAlnumChar (keepAlnum b) ∨ keepAlnum b = ' ' := by
  unfold keepAlnum isAlnumChar
  by_cases h : ('a' ≤ b ∧ b ≤ 'z') ∨ ('0' ≤ b ∧ b ≤ '9')
  · rw [if_pos h]
    exact Or.inl h
  · rw [if_neg h]
    exact Or.inr rfl

theorem mem_collapseSpaces {c : Char} : ∀ {l : List Char}, c ∈ collapseSpaces l → c ∈ l := by
  intro l
  induction l using collapseSpaces.induct with
  | case1 =>
    simp [collapseSpaces]
  | case2 d =>
    simp [collapseSpaces]
  | case3 c₁ c₂ rest hif ih =>
    rw [collapseSpaces, if_pos hif]
    intro h
    exact List.mem_cons_of_mem _ (ih h)
  | case4 c₁ c₂ rest hif ih =>
    rw [collapseSpaces, if_neg hif]
    intro h
    rcases List.mem_cons.1 h with h | h
    · exact h ▸ List.mem_cons_self _ _
    · exact List.mem_cons_of_mem _ (ih h)

theorem mem_stripSpaces {c : Char} {l : List Char} (h : c ∈ stripSpaces l) : c ∈ l := by
  unfold stripSpaces at h
  rw [List.mem_reverse] at h
  have h1 : c ∈ (l.dropWhile (· = ' ')).reverse := (List.dropWhile_sublist _).mem h
  rw [List.mem_reverse] at h1
  exact (List.dropWhile_sublist _).mem h1

theorem splitSpace_chars : ∀ (l : List Char) (w : List Char), w ∈ splitSpace l →
    ∀ c ∈ w, c ∈ l ∧ c ≠ ' ' := by
  intro l
  induction l with
  | nil =>
    intro w hw c hc
    simp only [splitSpace, List.mem_singleton] at hw
    subst hw
    exact absurd hc (List.not_mem_nil c)
  | cons a rest ih =>
    intro w hw c hc
    rw [splitSpace] at hw
    rcases hsplit : splitSpace rest with _ | ⟨w0, ws⟩
    · rw [hsplit] at hw
      simp only [List.mem_singleton] at hw
      subst hw
      exact absurd hc (List.not_mem_nil c)
    · rw [hsplit] at hw
      dsimp only at hw
      by_cases ha : a = ' '
      · rw [if_pos ha] at hw
        rcases List.mem_cons.1 hw with h | h
        · subst h
          exact absurd hc (List.not_mem_nil c)
        · have h2 := ih w (hsplit ▸ h) c hc
          exact ⟨List.mem_cons_of_mem _ h2.1, h2.2⟩
      · rw [if_neg ha] at hw
        rcases List.mem_cons.1 hw with h | h
        · subst h
          rcases List.mem_cons.1 hc with h | h
          · subst h
            exact ⟨List.mem_cons_self _ _, ha⟩
          · have h2 := ih w0 (hsplit ▸ List.mem_cons_self w0 ws) c h
            exact ⟨List.mem_cons_of_mem _ h2.1, h2.2⟩
        · have h2 := ih w (hsplit ▸ List.mem_cons_of_mem w0 h) c hc
          exact ⟨List.mem_cons_of_mem _ h2.1, h2.2⟩

theorem extractWords_spec (uni : List Char → List Char) (text : List Char)
    (w : List Char) (hw : w ∈ extractWords uni text) :
    2 ≤ w.length ∧ ∀ c ∈ w, isAlnumChar c := by
  unfold extractWords at hw
  rcases List.mem_filter.1 hw with ⟨hmem, hlen⟩
  refine ⟨by simpa using hlen, ?_⟩
  intro c hc
  have h1 := splitSpace_chars _ w hmem c hc
  have h2 : c ∈ normalize uni text := h1.1
  unfold normalize at h2
  have h4 := mem_stripSpaces h2
  have h5 := mem_collapseSpaces h4
  rcases List.mem_map.1 h5 with ⟨b, _, rfl⟩
  rcases keepAlnum_cases b with h | h
  · exact h
  · exact absurd h h1.2

end SearchEngine

namespace SearchEngine

theorem ceilSqrt_pos {n : Nat} (h : 0 < n) : 0 < ceilSqrt n := by
  unfold ceilSqrt
  by_cases he : Nat.sqrt n * Nat.sqrt n = n
  · rw [if_pos he]
    rcases Nat.eq_zero_or_pos (Nat.sqrt n) with hz | hp
    · rw [hz] at he
      simp at he
      omega
    · exact hp
  · rw [if_neg he]
    omega

/-- Claim C10: every token emitted by the word tokenizer, the prefix
tokenizer (minimum prefix length 4) or the n-gram tokenizer (n = 3) has a
value of length at least 2 whose characters all lie in `a`-`z`, `0`-`9`
(normalization leaves no uppercase, whitespace or punctuation), and carries
the weight the tokenizer was configured with (defaults 20, 5 and 1); when
that weight is positive, the posting weight
`fieldWeight * weight * ceil(sqrt(length))` built from the token is a
positive integer. -/
theorem claim10_token_invariants (uni : List Char → List Char) (w : Int)
    (text : List Char) (t : Token)
    (hmem : t ∈ wordTokenize uni w text ∨ t ∈ prefixTokenize uni w 4 text
      ∨ t ∈ ngramTokenize uni w 3 text) :
    (t.weight = w ∧ 2 ≤ t.value.length ∧ ∀ c ∈ t.value, isAlnumChar c)
    ∧ (0 < w → 0 < fieldWeight * t.weight * (ceilSqrt t.value.length : Int)) := by
  have hmain : t.weight = w ∧ 2 ≤ t.value.length ∧ ∀ c ∈ t.value, isAlnumChar c := by
    rcases hmem with h | h | h
    · unfold wordTokenize at h
      rcases List.mem_map.1 h with ⟨word, hword, rfl⟩
      have hspec := extractWords_spec uni text word (List.mem_dedup.1 hword)
      exact ⟨rfl, hspec.1, hspec.2⟩
    · simp only [prefixTokenize] at h
      rcases List.mem_map.1 h with ⟨v, hv, rfl⟩
      rw [List.mem_dedup] at hv
      rcases List.mem_flatMap.1 hv with ⟨word, hword, hvw⟩
      by_cases hg : 4 ≤ word.length
      · rw [if_pos hg] at hvw
        rcases List.mem_map.1 hvw with ⟨i, hi, rfl⟩
        rcases List.mem_range'_1.1 hi with ⟨h4, hub⟩
        have hspec := extractWords_spec uni text word hword
        refine ⟨rfl, ?_, ?_⟩
        · rw [List.length_take, min_eq_left (by omega)]
          omega
        · intro c hc
          exact hspec.2 c (List.mem_of_mem_take hc)
      · rw [if_neg hg] at hvw
        exact absurd hvw (List.not_mem_nil _)
    · simp only [ngramTokenize] at h
      rcases List.mem_map.1 h with ⟨v, hv, rfl⟩
      rw [List.mem_dedup] at hv
      rcases List.mem_flatMap.1 hv with ⟨word, hword, hvw⟩
      by_cases hg : 3 ≤ word.length
      · rw [if_pos hg] at hvw
        rcases List.mem_map.1 hvw with ⟨i, hi, rfl⟩
        have hi2 := List.mem_range.1 hi
        have hspec := extractWords_spec uni text word hword
        refine ⟨rfl, ?_, ?_⟩
        · rw [List.length_take, List.length_drop, min_eq_left (by omega)]
          omega
        · intro c hc
          exact hspec.2 c (List.mem_of_mem_drop (List.mem_of_mem_take hc))
      · rw [if_neg hg] at hvw
        exact absurd hvw (List.not_mem_nil _)
  refine ⟨hmain, ?_⟩
  intro hw
  rw [hmain.1]
  have h2 : 0 < ceilSqrt t.value.length := ceilSqrt_pos (by omega)
  have h3 : (0 : Int) < (ceilSqrt t.value.length : Int) := by exact_mod_cast h2
  have h10 : (0 : Int) < fieldWeight := by norm_num [fieldWeight]
  exact mul_pos (mul_pos h10 hw) h3

/-- Witness for claim C10: the word token `data` with the default word
weight 20 satisfies the invariant, and its posting weight is positive. -/
theorem claim10_witness :
    ((⟨"data".toList, (20 : Int)⟩ : Token) ∈ wordTokenize id 20 ("data".toList)
      ∨ (⟨"data".toList, (20 : Int)⟩ : Token) ∈ prefixTokenize id 20 4 ("data".toList)
      ∨ (⟨"data".toList, (20 : Int)⟩ : Token) ∈ ngramTokenize id 20 3 ("data".toList))
    ∧ (0 : Int) < 20
    ∧ ((⟨"data".toList, (20 : Int)⟩ : Token).weight = 20
        ∧ 2 ≤ (⟨"data".toList, (20 : Int)⟩ : Token).value.length
        ∧ ∀ c ∈ (⟨"data".toList, (20 : Int)⟩ : Token).value, isAlnumChar c)
    ∧ 0 < fieldWeight * (⟨"data".toList, (20 : Int)⟩ : Token).weight
        * (ceilSqrt (⟨"data".toList, (20 : Int)⟩ : Token).value.length : Int) := by
  have hmem : (⟨"data".toList, (20 : Int)⟩ : Token) ∈ wordTokenize id 20 ("data".toList) := by
    rw [show wordTokenize id 20 ("data".toList) = [⟨"data".toList, 20⟩] from rfl]
    exact List.mem_cons_self _ _
  have h := claim10_token_invariants id 20 ("data".toList) ⟨"data".toList, 20⟩
    (Or.inl hmem)
  exact ⟨Or.inl hmem, by norm_num, h.1, h.2 (by norm_num)⟩

end SearchEngine

namespace SearchEngine

theorem normalizedTokenCount_eq_spec (db : DB) (d : Int) :
    normalizedTokenCount db d = specTokenCount db d := by
  unfold normalizedTokenCount specTokenCount
  cases h : db.docs.find? (fun dd => decide (dd.id = d)) with
  | none => simp
  | some doc => simp

theorem matchingEntries_filter_eq_spec (db : DB) (tv : List (List Char)) (d : Int) :
    (matchingEntries db tv).filter (fun e => decide (e.documentId = d))
      = specMatching db tv d := by
  unfold matchingEntries specMatching
  rw [List.filter_filter]
  apply List.filter_congr
  intro e _
  rcases Decidable.em (e.tokenName ∈ tv) with h1 | h1 <;>
    rcases Decidable.em (e.documentId = d) with h2 | h2 <;>
      simp [h1, h2]

theorem searchScores_eq_map (db : DB) (tv : List (List Char)) :
    searchScores db tv
      = (candidateDocIds db tv).map (fun d => (d, specScore db tv d)) := by
  unfold searchScores
  apply List.map_congr_left
  intro d _
  dsimp only
  rw [matchingEntries_filter_eq_spec, normalizedTokenCount_eq_spec]
  rfl

end SearchEngine

namespace SearchEngine

/-- Model-level refinement of the scoring pipeline, stated for the store
in which document rows carry the token count — the store the spec
describes, which the program never reaches because the token count read
fails on the ORM model missing that field.  On that store, for a query
with non-empty tokenization, the grouped Sum/Count/Avg aggregation scores
each candidate as
`baseScore * (1 + tokenDiversity) * (1 + avgWeight) / tokenCount` (token
count floored to 1 when zero or missing) and the result is the candidate
ids in descending score order truncated to `limit`; stated for stores in
which every candidate id still has a document row, since the code
silently drops candidates whose row has disappeared. -/
theorem searchRanking_on_spec_store (uni : List Char → List Char) (db : DB)
    (query : List Char) (limit : Nat)
    (hne : allTokens uni query ≠ [])
    (hdocs : ∀ d ∈ candidateDocIds db (candidateTokenValues uni query),
      (db.docs.find? (fun dd => decide (dd.id = d))).isSome = true) :
    ∃ ranking : List Int,
      ranking.Perm (candidateDocIds db (candidateTokenValues uni query))
      ∧ List.Pairwise (fun a b =>
          specScore db (candidateTokenValues uni query) b
            ≤ specScore db (candidateTokenValues uni query) a) ranking
      ∧ search uni db query limit = ranking.take limit := by
  have hperm : ((searchScores db (candidateTokenValues uni query)).mergeSort
      (fun a b => decide (b.2 ≤ a.2))).Perm
        (searchScores db (candidateTokenValues uni query)) :=
    List.mergeSort_perm _ _
  have hfst : (searchScores db (candidateTokenValues uni query)).map Prod.fst
      = candidateDocIds db (candidateTokenValues uni query) := by
    rw [searchScores_eq_map, List.map_map]
    have hcomp : (Prod.fst ∘ fun d : Int =>
        (d, specScore db (candidateTokenValues uni query) d)) = id := rfl
    rw [hcomp, List.map_id]
  have hsnd : ∀ p ∈ searchScores db (candidateTokenValues uni query),
      p.2 = specScore db (candidateTokenValues uni query) p.1 := by
    intro p hp
    rw [searchScores_eq_map] at hp
    rcases List.mem_map.1 hp with ⟨d, _, rfl⟩
    rfl
  have hpw := @List.sorted_mergeSort (Int × ℚ)
    (fun a b : Int × ℚ => decide (b.2 ≤ a.2))
    (fun a b c h1 h2 => by
      simp only [decide_eq_true_eq] at h1 h2 ⊢
      exact le_trans h2 h1)
    (fun a b => by
      simp only [Bool.or_eq_true, decide_eq_true_eq]
      exact le_total b.2 a.2)
    (searchScores db (candidateTokenValues uni query))
  have hpw2 : List.Pairwise (fun a b : Int × ℚ =>
      specScore db (candidateTokenValues uni query) b.1
        ≤ specScore db (candidateTokenValues uni query) a.1)
      ((searchScores db (candidateTokenValues uni query)).mergeSort
        (fun a b => decide (b.2 ≤ a.2))) := by
    refine List.Pairwise.imp_of_mem ?_ hpw
    intro a b ha hb hab
    rw [← hsnd a (hperm.mem_iff.mp ha), ← hsnd b (hperm.mem_iff.mp hb)]
    exact of_decide_eq_true hab
  have hne2 : (allTokens uni query).isEmpty = false := by
    cases h : allTokens uni query with
    | nil => exact absurd h hne
    | cons a t => rfl
  have hfilter : ∀ d ∈ (((searchScores db (candidateTokenValues uni query)).mergeSort
        (fun a b => decide (b.2 ≤ a.2))).take limit).map Prod.fst,
      ((db.docs.find? (fun dd => decide (dd.id = d))).isSome = true) := by
    intro d hd
    rcases List.mem_map.1 hd with ⟨p, hp, rfl⟩
    have hp2 : p ∈ searchScores db (candidateTokenValues uni query) :=
      hperm.mem_iff.mp (List.mem_of_mem_take hp)
    rw [searchScores_eq_map] at hp2
    rcases List.mem_map.1 hp2 with ⟨d0, hd0, rfl⟩
    exact hdocs d0 hd0
  refine ⟨((searchScores db (candidateTokenValues uni query)).mergeSort
      (fun a b => decide (b.2 ≤ a.2))).map Prod.fst,
    hfst ▸ hperm.map Prod.fst, List.pairwise_map.2 hpw2, ?_⟩
  unfold search
  simp only [hne2, Bool.false_eq_true, if_false]
  rw [List.filter_eq_self.2 hfilter, List.map_take]

end SearchEngine

namespace SearchEngine

/-- Instance of the model-level ranking refinement: on the indexed fixture
store, the query `dat` tokenizes to the single candidate value `dat`, its
candidate document is present, and the modelled `search` returns the
ranked ids. -/
theorem searchRanking_on_spec_store_instance :
    (allTokens id ("dat".toList) ≠ [])
    ∧ (∀ d ∈ candidateDocIds db1 (candidateTokenValues id ("dat".toList)),
        (db1.docs.find? (fun dd => decide (dd.id = d))).isSome = true)
    ∧ ∃ ranking : List Int,
        ranking.Perm (candidateDocIds db1 (candidateTokenValues id ("dat".toList)))
        ∧ List.Pairwise (fun a b =>
            specScore db1 (candidateTokenValues id ("dat".toList)) b
              ≤ specScore db1 (candidateTokenValues id ("dat".toList)) a) ranking
        ∧ search id db1 ("dat".toList) 10 = ranking.take 10 := by
  have hd : distinctQueryValues id ("dat".toList) = ["dat".toList] := by decide
  have hs : sortByLenDesc (distinctQueryValues id ("dat".toList)) = ["dat".toList] := by
    unfold sortByLenDesc
    rw [hd, List.mergeSort_singleton]
  have htv : candidateTokenValues id ("dat".toList) = ["dat".toList] := by
    unfold candidateTokenValues
    rw [hs]
    decide
  refine ⟨by decide, ?_, ?_⟩
  · rw [htv]
    decide
  · exact searchRanking_on_spec_store id db1 ("dat".toList) 10 (by decide) (by rw [htv]; decide)

end SearchEngine

namespace SearchEngine

/-- Claim C2 (code bug evidence): a query with non-empty tokenization (for
example the single word `dat`) passes the empty-tokenization early return
of `search`, which then reads the candidate document rows with
`values("id", "token_count")`; the `NewsClassification` ORM model declares
no `token_count` field, so the field resolution fails and the program
raises before computing any score — the ranked list the claim describes is
never returned. -/
theorem claim2_values_field_missing :
    allTokens id ("dat".toList) ≠ []
    ∧ resolveUpdateFields newsClassificationFields ["id", "token_count"] = none
    ∧ "token_count" ∉ newsClassificationFields := by
  refine ⟨by decide, rfl, by decide⟩

end SearchEngine
